import Mathlib

/-!
Verification of the rmf_traffic conflict-detection core
(`rmf_traffic/include/rmf_traffic/Conflict.hpp`).

The repository ships only the public header for this component: the
translation unit implementing `DetectConflict::between`, `broad_phase`,
`narrow_phase`, `ConflictResult` and `ConflictData` is not part of the
sources.  The definitions below therefore model the component from its
written specification (the header's doc comments and the accompanying
design document): trajectories are ordered lists of time-bounded segments,
time is the integer nanosecond count of `rmf_traffic::Time`
(`std::chrono::time_point`), and each segment carries its continuous
motion as a position and radius function sampled at integer instants.
-/

/-- Modelled from the spec: a single time-bounded piece of a trajectory as
consumed by the detector (the `Trajectory::Segment` interface; the segment
container implementation is not in the sources).  `t0`/`t1` bound the
segment's time interval, `px`/`py` give the position of the moving body at
an instant and `r` its footprint radius. -/
structure Segment where
  t0 : Int
  t1 : Int
  px : Int → Int
  py : Int → Int
  r : Int → Int

/-- Modelled from the spec: the read-only view of an `rmf_traffic::Trajectory`
that the detector consumes — one surface (map) identifier and an ordered,
contiguous list of segments. -/
structure Trajectory where
  mapName : String
  segments : List Segment

/-- Start of a trajectory's time span (the first segment's start time). -/
def startT (tr : Trajectory) : Int :=
  ((tr.segments.head?).map Segment.t0).getD 0

/-- End of a trajectory's time span (the last segment's finish time). -/
def finishT (tr : Trajectory) : Int :=
  ((tr.segments.getLast?).map Segment.t1).getD 0

/-- Well-formedness of a segment list, as the data model demands of the
external trajectory collaborator: every segment has a non-degenerate time
interval, consecutive segments are contiguous in time, and the motion
functions of consecutive segments agree at the shared boundary instant
(the continuity invariant the accessor must uphold). -/
def segsWf : List Segment → Bool
  | [] => true
  | [s] => decide (s.t0 < s.t1)
  | s :: s2 :: rest =>
    decide (s.t0 < s.t1) && decide (s.t1 = s2.t0) &&
    decide (s.px s.t1 = s2.px s.t1) && decide (s.py s.t1 = s2.py s.t1) &&
    decide (s.r s.t1 = s2.r s.t1) && segsWf (s2 :: rest)

/-- Well-formedness of a trajectory: non-empty and with a well-formed
segment list. -/
def wfT (tr : Trajectory) : Bool :=
  !tr.segments.isEmpty && segsWf tr.segments

/-- Start of the intersection sub-interval of a segment pair. -/
def iStart (q : Segment × Segment) : Int := max q.1.t0 q.2.t0

/-- End of the intersection sub-interval of a segment pair. -/
def iEnd (q : Segment × Segment) : Int := min q.1.t1 q.2.t1

/-- Modelled from the spec: the sign-determining part of the separation
function `d(t) = dist(p_a(t), p_b(t)) - (r_a(t) + r_b(t))` for a segment
pair, expressed without the square root: `d(t) ≤ 0` iff the squared
distance does not exceed the squared radius sum (radii are non-negative
footprint extents). -/
def sepsq (q : Segment × Segment) (t : Int) : Int :=
  (q.1.px t - q.2.px t) ^ 2 + (q.1.py t - q.2.py t) ^ 2 -
    (q.1.r t + q.2.r t) ^ 2

/-- Whether the two bodies of a segment pair are in conflict (separation
`d(t) ≤ 0`, touching included) at instant `t`. -/
def conflictB (q : Segment × Segment) (t : Int) : Bool :=
  decide (sepsq q t ≤ 0)

/-- Modelled from the spec: the narrow-phase time search over one segment
pair's intersection sub-interval (the conservative-advancement search of
`DetectConflict::narrow_phase`, whose translation unit is not in the
sources).  Scans instants `t, t+1, ...` for `fuel` steps and returns the
first one at which the separation is `≤ 0`. -/
def searchConf (q : Segment × Segment) : Int → Nat → Option Int
  | _, 0 => none
  | t, Nat.succ n => if conflictB q t then some t else searchConf q (t + 1) n

/-- First conflict instant of a segment pair within its intersection
sub-interval `[iStart q, iEnd q]`, if any. -/
def firstConfT (q : Segment × Segment) : Option Int :=
  searchConf q (iStart q) (iEnd q + 1 - iStart q).toNat

/-- Modelled from the spec: the payload of a confirmed conflict
(`rmf_traffic::ConflictData` in its valid state): the conflict time and
the pair of implicated segments, one per trajectory. -/
structure ConflictData where
  time : Int
  segA : Segment
  segB : Segment

/-- Modelled from the spec: the narrow-phase walk over the candidate
segment pairs in increasing time order — stop at the first pair that
yields a conflict and build `ConflictData` from its localized conflict
time and the two segment references. -/
def findConflict : List (Segment × Segment) → Option ConflictData
  | [] => none
  | q :: rest =>
    match firstConfT q with
    | some t => some ⟨t, q.1, q.2⟩
    | none => findConflict rest

/-- Whether two segments' time intervals intersect (touching endpoints
included). -/
def overlapB (a b : Segment) : Bool :=
  decide (max a.t0 b.t0 ≤ min a.t1 b.t1)

/-- Modelled from the spec: the merge (two-cursor) scan of the narrow
phase, fuel-indexed for structural recursion.  Walks the two segment
lists in time order, emits each cursor pair whose time intervals
intersect, and advances the cursor whose segment finishes first. -/
def pairScanGo : Nat → List Segment → List Segment → List (Segment × Segment)
  | 0, _, _ => []
  | Nat.succ _, [], _ => []
  | Nat.succ _, _, [] => []
  | Nat.succ fuel, a :: xs, b :: ys =>
    (if overlapB a b then [(a, b)] else []) ++
      (if a.t1 ≤ b.t1 then pairScanGo fuel xs (b :: ys)
       else pairScanGo fuel (a :: xs) ys)

/-- The candidate segment pairs of the narrow phase, in increasing time
order (the fuel `xs.length + ys.length` suffices for the scan to reach
both list ends). -/
def pairScan (xs ys : List Segment) : List (Segment × Segment) :=
  pairScanGo (xs.length + ys.length) xs ys

/-- Modelled from the spec: the distinct error condition raised by guarded
access to `ConflictData` on a conflict-free `ConflictResult`
(`rmf_traffic::bad_conflict_access`; the translation unit defining it is
not in the sources). -/
inductive bad_conflict_access where
  | mk : bad_conflict_access

/-- Modelled from the spec: `rmf_traffic::ConflictResult` — a discriminated
value that is either "no conflict" or "conflict" wrapping a
`ConflictData`. -/
structure ConflictResult where
  data : Option ConflictData

/-- Modelled from the spec: `ConflictResult::has_conflict` — true iff a
conflict was detected. -/
def ConflictResult.has_conflict (r : ConflictResult) : Bool :=
  r.data.isSome

/-- Modelled from the spec: the implicit boolean conversion of
`ConflictResult`, determined by `has_conflict`. -/
def ConflictResult.toBool (r : ConflictResult) : Bool :=
  r.has_conflict

/-- Modelled from the spec: the default `ConflictResult` constructor — the
result is considered conflict-free until another result is assigned to
it. -/
def ConflictResult.mkDefault : ConflictResult :=
  ⟨none⟩

/-- Modelled from the spec: `ConflictResult::operator*` — yields the
contained `ConflictData` when a conflict was detected, and signals
`bad_conflict_access` otherwise (the C++ throw is modelled as the error
branch of `Except`). -/
def ConflictResult.deref (r : ConflictResult) :
    Except bad_conflict_access ConflictData :=
  match r.data with
  | some d => Except.ok d
  | none => Except.error bad_conflict_access.mk

/-- Modelled from the spec: `ConflictResult::operator->` — same guarded
access as the dereference operator. -/
def ConflictResult.drill (r : ConflictResult) :
    Except bad_conflict_access ConflictData :=
  match r.data with
  | some d => Except.ok d
  | none => Except.error bad_conflict_access.mk

/-- Modelled from the spec: the `rmf_traffic::ConflictData` object as a
C++ value — its hidden implementation pointer is unset after default
construction (`impl = none`) and holds the conflict payload once a valid
instance has been assigned in.  The header warns that calling member
functions in the unset state has no defined result; that absence of any
defined result is modelled by the `none` value the accessors return
below, and — unlike `ConflictResult`'s guarded access — no
`bad_conflict_access` error is ever signalled. -/
structure ConflictDataBox where
  impl : Option ConflictData

/-- Modelled from the spec: the public default constructor of
`ConflictData`, producing an object whose implementation state is
unset. -/
def ConflictDataBox.mkDefault : ConflictDataBox :=
  ⟨none⟩

/-- Modelled from the spec: `ConflictData::get_time`, as a state-passing
read returning the accessed value and the post-call object (so that the
frame property "the accessor leaves the object unchanged" is
expressible). -/
def ConflictDataBox.get_time (d : ConflictDataBox) :
    Option Int × ConflictDataBox :=
  ((d.impl).map ConflictData.time, d)

/-- Modelled from the spec: `ConflictData::get_segments`, as a
state-passing read returning the pair of segment references and the
post-call object. -/
def ConflictDataBox.get_segments (d : ConflictDataBox) :
    Option (Segment × Segment) × ConflictDataBox :=
  ((d.impl).map (fun c => (c.segA, c.segB)), d)

/-- Modelled from the spec: `DetectConflict::broad_phase` — true iff the
two trajectories report the same map name and their overall time spans
overlap, touching endpoints included (a conflict exactly at a shared
boundary instant must not be filtered out). -/
def broad_phase (A B : Trajectory) : Bool :=
  decide (A.mapName = B.mapName) &&
    decide (max (startT A) (startT B) ≤ min (finishT A) (finishT B))

/-- Modelled from the spec: `DetectConflict::narrow_phase` — walk the
time-ordered candidate segment pairs and report the first localized
conflict, or a conflict-free result when no pair yields one. -/
def narrow_phase (A B : Trajectory) : ConflictResult :=
  ⟨findConflict (pairScan A.segments B.segments)⟩

/-- Modelled from the spec: `DetectConflict::between` — run the broad
phase; when it fails return "no conflict" immediately, otherwise return
the narrow-phase result unchanged. -/
def between (A B : Trajectory) : ConflictResult :=
  if broad_phase A B then narrow_phase A B else ConflictResult.mkDefault

/-- Some candidate segment pair of the scan is in conflict at instant `t`
within its intersection sub-interval. -/
def inConflictAt (xs ys : List Segment) (t : Int) : Prop :=
  ∃ q ∈ pairScan xs ys, iStart q ≤ t ∧ t ≤ iEnd q ∧ conflictB q t = true

/-- Two segments agree (in position and radius) at the instant `t`. -/
def agreeAt (s s2 : Segment) (t : Int) : Prop :=
  s.px t = s2.px t ∧ s.py t = s2.py t ∧ s.r t = s2.r t

/-- The functional contract of the narrow phase (claim C3): when a
conflict is reported, its time is in conflict within the reported pair's
intersection sub-interval, it is the earliest conflicting instant over
all candidate pairs, and the reported pair is the first candidate pair
(in increasing time order) yielding a conflict; when no candidate pair
yields a conflicting instant, the result is conflict-free. -/
def C3Prop (A B : Trajectory) : Prop :=
  (∀ cd, (narrow_phase A B).data = some cd →
      conflictB (cd.segA, cd.segB) cd.time = true ∧
      iStart (cd.segA, cd.segB) ≤ cd.time ∧
      cd.time ≤ iEnd (cd.segA, cd.segB) ∧
      (∀ t, inConflictAt A.segments B.segments t → cd.time ≤ t) ∧
      (∃ pre post,
        pairScan A.segments B.segments = pre ++ (cd.segA, cd.segB) :: post ∧
          ∀ q ∈ pre, ∀ t, iStart q ≤ t → t ≤ iEnd q → conflictB q t = false)) ∧
  ((∀ t, ¬ inConflictAt A.segments B.segments t) →
      (narrow_phase A B).data = none)

/-- The symmetry contract of the facade (claim C5): `between A B` reports
a conflict exactly when `between B A` does, and when both do, the two
results carry the same conflict time with the segment references
swapped. -/
def C5Prop (A B : Trajectory) : Prop :=
  (between A B).has_conflict = (between B A).has_conflict ∧
  ∀ cd cd2, (between A B).data = some cd → (between B A).data = some cd2 →
    cd2.time = cd.time ∧ cd2.segA = cd.segB ∧ cd2.segB = cd.segA

/-! ## Concrete fixtures used by the witness theorems -/

/-- A two-segment trajectory moving from x = 0 to x = 10 on map L1. -/
def trajA : Trajectory :=
  ⟨"L1", [⟨0, 5, fun t => t, fun _ => 0, fun _ => 1⟩,
          ⟨5, 10, fun t => t, fun _ => 0, fun _ => 1⟩]⟩

/-- A one-segment trajectory moving from x = 10 to x = 0 on map L1. -/
def trajB : Trajectory :=
  ⟨"L1", [⟨0, 10, fun t => 10 - t, fun _ => 0, fun _ => 1⟩]⟩

/-- A stationary trajectory on a different map, L2. -/
def trajC : Trajectory :=
  ⟨"L2", [⟨0, 10, fun _ => 50, fun _ => 50, fun _ => 1⟩]⟩

/-- A stationary trajectory on map L1 whose time span is disjoint from
`trajA`'s. -/
def trajD : Trajectory :=
  ⟨"L1", [⟨20, 30, fun _ => 0, fun _ => 0, fun _ => 1⟩]⟩

/-- A single concrete segment. -/
def seg0 : Segment :=
  ⟨0, 5, fun t => t, fun _ => 0, fun _ => 1⟩

/-- A concrete conflict payload. -/
def cd0 : ConflictData :=
  ⟨4, seg0, seg0⟩

/-- A `ConflictResult` holding a conflict. -/
def resOne : ConflictResult :=
  ⟨some cd0⟩

/-- A `ConflictData` object in its valid (assigned) state. -/
def box0 : ConflictDataBox :=
  ⟨some cd0⟩

/-- A segment sitting at the origin with radius 1. -/
def segT1 : Segment :=
  ⟨0, 1, fun _ => 0, fun _ => 0, fun _ => 1⟩

/-- A segment sitting at x = 2 with radius 1, exactly touching `segT1`. -/
def segT2 : Segment :=
  ⟨0, 1, fun _ => 2, fun _ => 0, fun _ => 1⟩

/-! ## Claim theorems: facade and outcome types -/

/-- C1: `between` first runs the broad phase; when it fails the result is
the conflict-free `ConflictResult` and the narrow phase is not consulted,
and when it passes the result is exactly the narrow-phase result,
unchanged. -/
theorem conflict_c1 (A B : Trajectory) :
    (broad_phase A B = false →
        between A B = ConflictResult.mkDefault ∧
          (between A B).has_conflict = false) ∧
    (broad_phase A B = true → between A B = narrow_phase A B) := by
  constructor
  · intro h
    simp [between, h, ConflictResult.mkDefault, ConflictResult.has_conflict]
  · intro h
    simp [between, h]

/-- Witness for C1 at concrete trajectories: a pair failing the broad
phase and a pair passing it. -/
theorem conflict_c1_w :
    broad_phase trajA trajC = false ∧
      (between trajA trajC = ConflictResult.mkDefault ∧
        (between trajA trajC).has_conflict = false) ∧
      broad_phase trajA trajB = true ∧
      between trajA trajB = narrow_phase trajA trajB :=
  ⟨by decide, (conflict_c1 trajA trajC).1 (by decide), by decide,
    (conflict_c1 trajA trajB).2 (by decide)⟩

/-- C2: the broad phase passes exactly when the two trajectories report
the same map name and their time spans have a non-empty intersection,
where spans touching at a single shared endpoint count as overlapping. -/
theorem conflict_c2 (A B : Trajectory) (hA : wfT A = true) (hB : wfT B = true) :
    broad_phase A B = true ↔
      A.mapName = B.mapName ∧
        (Set.Icc (startT A) (finishT A) ∩
          Set.Icc (startT B) (finishT B)).Nonempty := by
  rw [Set.Icc_inter_Icc, Set.nonempty_Icc]
  simp [broad_phase, sup_eq_max, inf_eq_min]

/-- Witness for C2 at concrete trajectories. -/
theorem conflict_c2_w :
    wfT trajA = true ∧ wfT trajB = true ∧
      (broad_phase trajA trajB = true ↔
        trajA.mapName = trajB.mapName ∧
          (Set.Icc (startT trajA) (finishT trajA) ∩
            Set.Icc (startT trajB) (finishT trajB)).Nonempty) :=
  ⟨by decide, by decide, conflict_c2 trajA trajB (by decide) (by decide)⟩

/-- C4: guarded access on a conflict-free `ConflictResult` signals the
`bad_conflict_access` error through both the dereference and drill-down
operators, and on a conflict-carrying result both operators return the
contained `ConflictData` without error. -/
theorem conflict_c4 (r : ConflictResult) :
    (r.has_conflict = false →
        r.deref = Except.error bad_conflict_access.mk ∧
          r.drill = Except.error bad_conflict_access.mk) ∧
    (r.has_conflict = true →
        ∃ d, r.data = some d ∧ r.deref = Except.ok d ∧ r.drill = Except.ok d) := by
  obtain ⟨data⟩ := r
  cases data with
  | none =>
      refine ⟨fun _ => ⟨rfl, rfl⟩, fun h => ?_⟩
      simp [ConflictResult.has_conflict] at h
  | some d =>
      refine ⟨fun h => ?_, fun _ => ⟨d, rfl, rfl, rfl⟩⟩
      simp [ConflictResult.has_conflict] at h

/-- Witness for C4 at a concrete empty result and a concrete
conflict-carrying result. -/
theorem conflict_c4_w :
    ConflictResult.mkDefault.has_conflict = false ∧
      (ConflictResult.mkDefault.deref = Except.error bad_conflict_access.mk ∧
        ConflictResult.mkDefault.drill = Except.error bad_conflict_access.mk) ∧
      resOne.has_conflict = true ∧
      (∃ d, resOne.data = some d ∧ resOne.deref = Except.ok d ∧
        resOne.drill = Except.ok d) :=
  ⟨rfl, (conflict_c4 ConflictResult.mkDefault).1 rfl, rfl,
    (conflict_c4 resOne).2 rfl⟩

/-- C6: different map names, or time spans disjoint even at endpoints,
force a conflict-free `between` result regardless of geometry. -/
theorem conflict_c6 (A B : Trajectory)
    (h : A.mapName ≠ B.mapName ∨ finishT A < startT B ∨ finishT B < startT A) :
    between A B = ConflictResult.mkDefault ∧
      (between A B).has_conflict = false := by
  have hb : broad_phase A B = false := by
    rcases h with h | h | h
    · have hx : decide (A.mapName = B.mapName) = false := decide_eq_false h
      unfold broad_phase
      rw [hx, Bool.false_and]
    · have hx : decide (max (startT A) (startT B) ≤
          min (finishT A) (finishT B)) = false := decide_eq_false (by omega)
      unfold broad_phase
      rw [hx, Bool.and_false]
    · have hx : decide (max (startT A) (startT B) ≤
          min (finishT A) (finishT B)) = false := decide_eq_false (by omega)
      unfold broad_phase
      rw [hx, Bool.and_false]
  simp [between, hb, ConflictResult.mkDefault, ConflictResult.has_conflict]

/-- Witness for C6 at a concrete different-map pair and a concrete
disjoint-time pair. -/
theorem conflict_c6_w :
    (between trajA trajC = ConflictResult.mkDefault ∧
      (between trajA trajC).has_conflict = false) ∧
      (between trajA trajD = ConflictResult.mkDefault ∧
        (between trajA trajD).has_conflict = false) :=
  ⟨conflict_c6 trajA trajC (Or.inl (by decide)),
    conflict_c6 trajA trajD (Or.inr (Or.inl (by decide)))⟩

/-- C7: a default-constructed `ConflictResult` reports no conflict, and
the boolean conversion of every result coincides with `has_conflict`. -/
theorem conflict_c7 :
    ConflictResult.mkDefault.has_conflict = false ∧
      ∀ r : ConflictResult, r.toBool = r.has_conflict :=
  ⟨rfl, fun _ => rfl⟩

/-- C8: on a validly constructed `ConflictData` object, `get_time` and
`get_segments` succeed with the stored payload and leave the object
unchanged. -/
theorem conflict_c8 (d : ConflictDataBox) (c : ConflictData)
    (h : d.impl = some c) :
    (d.get_time).1 = some c.time ∧ (d.get_time).2 = d ∧
      (d.get_segments).1 = some (c.segA, c.segB) ∧ (d.get_segments).2 = d := by
  simp [ConflictDataBox.get_time, ConflictDataBox.get_segments, h]

/-- Witness for C8 at a concrete valid `ConflictData` object. -/
theorem conflict_c8_w :
    box0.impl = some cd0 ∧
      ((box0.get_time).1 = some cd0.time ∧ (box0.get_time).2 = box0 ∧
        (box0.get_segments).1 = some (cd0.segA, cd0.segB) ∧
        (box0.get_segments).2 = box0) :=
  ⟨rfl, conflict_c8 box0 cd0 rfl⟩

/-- C9: the three detection operations are deterministic functions of
their trajectory arguments — equal inputs yield equal outputs — and the
tangential boundary case, where the squared distance exactly equals the
squared radius sum, is treated as a conflict per the `d(t) ≤ 0`
definition. -/
theorem conflict_c9 :
    (∀ A B A2 B2 : Trajectory, A = A2 → B = B2 →
        between A B = between A2 B2 ∧ broad_phase A B = broad_phase A2 B2 ∧
          narrow_phase A B = narrow_phase A2 B2) ∧
    (∀ (sa sb : Segment) (t : Int),
        (sa.px t - sb.px t) ^ 2 + (sa.py t - sb.py t) ^ 2 =
          (sa.r t + sb.r t) ^ 2 →
        conflictB (sa, sb) t = true) := by
  constructor
  · rintro A B A2 B2 rfl rfl
    exact ⟨rfl, rfl, rfl⟩
  · intro sa sb t h
    simp only [conflictB, sepsq, decide_eq_true_eq]
    linarith [h]

/-- Witness for C9: determinism applied at concrete trajectories and the
touching case at two concrete exactly-tangent segments. -/
theorem conflict_c9_w :
    (between trajA trajB = between trajA trajB ∧
      broad_phase trajA trajB = broad_phase trajA trajB ∧
      narrow_phase trajA trajB = narrow_phase trajA trajB) ∧
      conflictB (segT1, segT2) 0 = true :=
  ⟨conflict_c9.1 trajA trajB trajA trajB rfl rfl,
    conflict_c9.2 segT1 segT2 0 (by decide)⟩

/-- C10: `ConflictData` offers a public default constructor whose result
carries no payload; its accessors then yield no defined result (`none`),
and no `bad_conflict_access` error is signalled, in contrast with the
guarded access of `ConflictResult`. -/
theorem conflict_c10 :
    ConflictDataBox.mkDefault.impl = none ∧
      (ConflictDataBox.mkDefault.get_time).1 = none ∧
      (ConflictDataBox.mkDefault.get_segments).1 = none :=
  ⟨rfl, rfl, rfl⟩

/-! ## Properties of the pointwise conflict search -/

/-- A successful search returns the first conflicting instant of the
scanned range. -/
theorem searchConf_some_spec (q : Segment × Segment) :
    ∀ (n : Nat) (t u : Int), searchConf q t n = some u →
      t ≤ u ∧ u < t + n ∧ conflictB q u = true ∧
        ∀ v, t ≤ v → v < u → conflictB q v = false := by
  intro n
  induction n with
  | zero =>
    intro t u h
    simp [searchConf] at h
  | succ n ih =>
    intro t u h
    by_cases hc : conflictB q t = true
    · have hu : t = u := by simpa [searchConf, hc] using h
      subst hu
      refine ⟨le_refl _, by omega, hc, ?_⟩
      intro v hv1 hv2
      exfalso
      omega
    · have hc2 : conflictB q t = false := by
        revert hc
        cases conflictB q t <;> simp
      have h2 : searchConf q (t + 1) n = some u := by
        simpa [searchConf, hc2] using h
      obtain ⟨h3, h4, h5, h6⟩ := ih (t + 1) u h2
      refine ⟨by omega, by omega, h5, ?_⟩
      intro v hv1 hv2
      by_cases hv : v = t
      · subst hv
        exact hc2
      · exact h6 v (by omega) hv2

/-- A failed search means no instant of the scanned range conflicts. -/
theorem searchConf_none_spec (q : Segment × Segment) :
    ∀ (n : Nat) (t : Int), searchConf q t n = none ↔
      ∀ v, t ≤ v → v < t + n → conflictB q v = false := by
  intro n
  induction n with
  | zero =>
    intro t
    constructor
    · intro _ v hv1 hv2
      exfalso
      omega
    · intro _
      simp [searchConf]
  | succ n ih =>
    intro t
    by_cases hc : conflictB q t = true
    · have heq : searchConf q t (Nat.succ n) = some t := by
        simp [searchConf, hc]
      rw [heq]
      constructor
      · intro h
        simp at h
      · intro hall
        have hfalse := hall t (le_refl t) (by omega)
        rw [hc] at hfalse
        simp at hfalse
    · have hc2 : conflictB q t = false := by
        revert hc
        cases conflictB q t <;> simp
      have heq : searchConf q t (Nat.succ n) = searchConf q (t + 1) n := by
        simp [searchConf, hc2]
      rw [heq, ih (t + 1)]
      constructor
      · intro hall v hv1 hv2
        by_cases hv : v = t
        · subst hv
          exact hc2
        · exact hall v (by omega) (by omega)
      · intro hall v hv1 hv2
        exact hall v (by omega) (by omega)

/-- A segment pair's first conflict instant lies in its intersection
sub-interval, conflicts, and is preceded by no conflicting instant. -/
theorem firstConfT_some_spec (q : Segment × Segment) (u : Int)
    (h : firstConfT q = some u) :
    iStart q ≤ u ∧ u ≤ iEnd q ∧ conflictB q u = true ∧
      ∀ v, iStart q ≤ v → v < u → conflictB q v = false := by
  obtain ⟨h1, h2, h3, h4⟩ := searchConf_some_spec q _ _ _ h
  refine ⟨h1, by omega, h3, h4⟩

/-- A segment pair yields no conflict exactly when no instant of its
intersection sub-interval conflicts. -/
theorem firstConfT_none_spec (q : Segment × Segment) :
    firstConfT q = none ↔
      ∀ v, iStart q ≤ v → v ≤ iEnd q → conflictB q v = false := by
  rw [firstConfT, searchConf_none_spec]
  constructor
  · intro hall v h1 h2
    exact hall v h1 (by omega)
  · intro hall v h1 h2
    exact hall v h1 (by omega)

/-! ## Properties of the walk over candidate pairs -/

/-- A reported conflict splits the candidate list into a conflict-free
prefix, the reported pair, and a remainder. -/
theorem findConflict_some_spec :
    ∀ (L : List (Segment × Segment)) (cd : ConflictData),
      findConflict L = some cd →
      ∃ pre post, L = pre ++ (cd.segA, cd.segB) :: post ∧
        (∀ q ∈ pre, firstConfT q = none) ∧
        firstConfT (cd.segA, cd.segB) = some cd.time := by
  intro L
  induction L with
  | nil =>
    intro cd h
    simp [findConflict] at h
  | cons q rest ih =>
    intro cd h
    cases hq : firstConfT q with
    | some t =>
      have hcd : ConflictData.mk t q.1 q.2 = cd := by
        simpa [findConflict, hq] using h
      refine ⟨[], rest, ?_, by simp, ?_⟩
      · rw [← hcd]
        simp
      · rw [← hcd]
        exact hq
    | none =>
      have h2 : findConflict rest = some cd := by
        simpa [findConflict, hq] using h
      obtain ⟨pre, post, hL, hpre, hfirst⟩ := ih cd h2
      refine ⟨q :: pre, post, by simp [hL], ?_, hfirst⟩
      intro p hp
      rcases List.mem_cons.mp hp with h3 | h3
      · subst h3
        exact hq
      · exact hpre p h3

/-- The walk reports no conflict exactly when no candidate pair yields
one. -/
theorem findConflict_none_spec :
    ∀ L : List (Segment × Segment),
      findConflict L = none ↔ ∀ q ∈ L, firstConfT q = none := by
  intro L
  induction L with
  | nil =>
    simp [findConflict]
  | cons q rest ih =>
    cases hq : firstConfT q with
    | some t =>
      constructor
      · intro h
        have : findConflict (q :: rest) = some ⟨t, q.1, q.2⟩ := by
          simp [findConflict, hq]
        rw [this] at h
        simp at h
      · intro hall
        have := hall q (List.mem_cons_self q rest)
        rw [hq] at this
        simp at this
    | none =>
      have heq : findConflict (q :: rest) = findConflict rest := by
        simp [findConflict, hq]
      rw [heq, ih]
      constructor
      · intro hall p hp
        rcases List.mem_cons.mp hp with h3 | h3
        · subst h3
          exact hq
        · exact hall p h3
      · intro hall p hp
        exact hall p (List.mem_cons_of_mem q hp)

/-! ## Consequences of segment-list well-formedness -/

/-- Any tail of a well-formed segment list is well-formed. -/
theorem segsWf_cons {s : Segment} {l : List Segment}
    (h : segsWf (s :: l) = true) : segsWf l = true := by
  cases l with
  | nil => rfl
  | cons s2 rest =>
    simp only [segsWf, Bool.and_eq_true] at h
    exact h.2

/-- The head of a well-formed segment list has a non-degenerate
interval. -/
theorem segsWf_head_lt {s : Segment} {l : List Segment}
    (h : segsWf (s :: l) = true) : s.t0 < s.t1 := by
  cases l with
  | nil => simpa [segsWf] using h
  | cons s2 rest =>
    simp only [segsWf, Bool.and_eq_true, decide_eq_true_eq] at h
    exact h.1.1.1.1.1

/-- Two consecutive segments of a well-formed list are contiguous and
their motion functions agree at the shared boundary instant. -/
theorem segsWf_adj {s s2 : Segment} {l : List Segment}
    (h : segsWf (s :: s2 :: l) = true) :
    s.t1 = s2.t0 ∧ agreeAt s s2 s.t1 := by
  simp only [segsWf, Bool.and_eq_true, decide_eq_true_eq] at h
  obtain ⟨⟨⟨⟨⟨_, h2⟩, h3⟩, h4⟩, h5⟩, _⟩ := h
  exact ⟨h2, h3, h4, h5⟩

/-- In a well-formed list, every later segment starts no earlier than
the head finishes. -/
theorem segsWf_le_of_mem {s : Segment} {l : List Segment}
    (h : segsWf (s :: l) = true) :
    ∀ x ∈ l, s.t1 ≤ x.t0 := by
  induction l generalizing s with
  | nil =>
    intro x hx
    simp at hx
  | cons s2 rest ih =>
    intro x hx
    obtain ⟨hadj, _⟩ := segsWf_adj h
    rcases List.mem_cons.mp hx with h3 | h3
    · subst h3
      omega
    · have h2 := segsWf_cons h
      have h4 := ih h2 x h3
      have h5 := segsWf_head_lt h2
      omega

/-- The head of a well-formed list starts no later than any member. -/
theorem segsWf_t0_le_of_mem {s : Segment} {l : List Segment}
    (h : segsWf (s :: l) = true) :
    ∀ x ∈ s :: l, s.t0 ≤ x.t0 := by
  intro x hx
  rcases List.mem_cons.mp hx with h3 | h3
  · subst h3
    exact le_refl _
  · have h4 := segsWf_le_of_mem h x h3
    have h5 := segsWf_head_lt h
    omega

/-- Agreement at `t` is symmetric. -/
theorem agreeAt_symm {s x : Segment} {t : Int} (h : agreeAt s x t) :
    agreeAt x s t :=
  ⟨h.1.symm, h.2.1.symm, h.2.2.symm⟩

/-- A segment always agrees with itself. -/
theorem agreeAt_refl (s : Segment) (t : Int) : agreeAt s s t :=
  ⟨rfl, rfl, rfl⟩

/-- If the head and a later member of a well-formed list both contain the
instant `t`, the two agree at `t` (the instant is necessarily the shared
boundary, where well-formedness demands agreement). -/
theorem segsWf_agree_head {s x : Segment} {l : List Segment} {t : Int}
    (h : segsWf (s :: l) = true) (hx : x ∈ l)
    (h1 : s.t0 ≤ t) (h2 : t ≤ s.t1) (h3 : x.t0 ≤ t) (h4 : t ≤ x.t1) :
    agreeAt s x t := by
  have hle := segsWf_le_of_mem h x hx
  have ht : t = s.t1 := by omega
  cases l with
  | nil =>
    simp at hx
  | cons s2 rest =>
    rcases List.mem_cons.mp hx with he | he
    · subst he
      obtain ⟨hadj, hag⟩ := segsWf_adj h
      rw [ht]
      exact hag
    · obtain ⟨hadj, _⟩ := segsWf_adj h
      have h5 := segsWf_cons h
      have h6 := segsWf_le_of_mem h5 x he
      have h7 := segsWf_head_lt h5
      exfalso
      omega

/-- Any two segments of a well-formed list that both contain the instant
`t` agree at `t`. -/
theorem segsWf_agree {l : List Segment} {s x : Segment} {t : Int}
    (h : segsWf l = true) (hs : s ∈ l) (hx : x ∈ l)
    (h1 : s.t0 ≤ t) (h2 : t ≤ s.t1) (h3 : x.t0 ≤ t) (h4 : t ≤ x.t1) :
    agreeAt s x t := by
  induction l with
  | nil =>
    simp at hs
  | cons hd rest ih =>
    rcases List.mem_cons.mp hs with hs1 | hs1 <;>
      rcases List.mem_cons.mp hx with hx1 | hx1
    · subst hs1
      subst hx1
      exact agreeAt_refl _ _
    · subst hs1
      exact segsWf_agree_head h hx1 h1 h2 h3 h4
    · subst hx1
      exact agreeAt_symm (segsWf_agree_head h hs1 h3 h4 h1 h2)
    · exact ih (segsWf_cons h) hs1 hx1

/-- The head of a well-formed segment list starts no later than any
instant contained in one of its members. -/
theorem segsWf_head?_t0_le {xs : List Segment} {s : Segment} {t : Int}
    (hw : segsWf xs = true) (hs : s ∈ xs) (ht : s.t0 ≤ t) :
    ∀ x, xs.head? = some x → x.t0 ≤ t := by
  intro x hx
  cases xs with
  | nil =>
    simp at hx
  | cons x0 rest =>
    simp only [List.head?_cons, Option.some.injEq] at hx
    subst hx
    have := segsWf_t0_le_of_mem hw s hs
    omega

/-! ## Properties of the merge scan -/

/-- Every emitted pair is drawn from the two segment lists. -/
theorem pairScanGo_mem :
    ∀ (fuel : Nat) (xs ys : List Segment) (q : Segment × Segment),
      q ∈ pairScanGo fuel xs ys → q.1 ∈ xs ∧ q.2 ∈ ys := by
  intro fuel
  induction fuel with
  | zero =>
    intro xs ys q h
    simp [pairScanGo] at h
  | succ fuel ih =>
    intro xs ys q h
    cases xs with
    | nil => simp [pairScanGo] at h
    | cons a xs2 =>
      cases ys with
      | nil => simp [pairScanGo] at h
      | cons b ys2 =>
        rw [pairScanGo] at h
        rcases List.mem_append.mp h with h1 | h1
        · split at h1
          · simp only [List.mem_singleton] at h1
            subst h1
            exact ⟨List.mem_cons_self _ _, List.mem_cons_self _ _⟩
          · simp at h1
        · split at h1
          · obtain ⟨m1, m2⟩ := ih xs2 (b :: ys2) q h1
            exact ⟨List.mem_cons_of_mem a m1, m2⟩
          · obtain ⟨m1, m2⟩ := ih (a :: xs2) ys2 q h1
            exact ⟨m1, List.mem_cons_of_mem b m2⟩

/-- For well-formed inputs the emitted pairs are ordered: each pair's
intersection sub-interval ends no later than any later pair's begins. -/
theorem pairScanGo_pairwise :
    ∀ (fuel : Nat) (xs ys : List Segment),
      segsWf xs = true → segsWf ys = true →
      List.Pairwise (fun p q => iEnd p ≤ iStart q) (pairScanGo fuel xs ys) := by
  intro fuel
  induction fuel with
  | zero =>
    intro xs ys _ _
    simp [pairScanGo]
  | succ fuel ih =>
    intro xs ys hx hy
    cases xs with
    | nil => simp [pairScanGo]
    | cons a xs2 =>
      cases ys with
      | nil => simp [pairScanGo]
      | cons b ys2 =>
        rw [pairScanGo]
        by_cases hadv : a.t1 ≤ b.t1
        · rw [if_pos hadv]
          have hrec := ih xs2 (b :: ys2) (segsWf_cons hx) hy
          by_cases ho : overlapB a b = true
          · rw [if_pos ho, List.singleton_append]
            refine List.Pairwise.cons ?_ hrec
            intro q hq
            obtain ⟨hq1, hq2⟩ := pairScanGo_mem fuel xs2 (b :: ys2) q hq
            have h5 := segsWf_le_of_mem hx q.1 hq1
            simp only [iEnd, iStart]
            omega
          · rw [if_neg ho, List.nil_append]
            exact hrec
        · rw [if_neg hadv]
          have hrec := ih (a :: xs2) ys2 hx (segsWf_cons hy)
          by_cases ho : overlapB a b = true
          · rw [if_pos ho, List.singleton_append]
            refine List.Pairwise.cons ?_ hrec
            intro q hq
            obtain ⟨hq1, hq2⟩ := pairScanGo_mem fuel (a :: xs2) ys2 q hq
            have h5 := segsWf_le_of_mem hy q.2 hq2
            simp only [iEnd, iStart]
            omega
          · rw [if_neg ho, List.nil_append]
            exact hrec

/-- The first emitted pair whose intersection sub-interval contains `t`
is the pair of the first segment of each list still active at `t`.  The
merge cursor provably reaches exactly that pair. -/
theorem pairScanGo_find_containing (t : Int) :
    ∀ (fuel : Nat) (xs ys : List Segment),
      xs.length + ys.length ≤ fuel →
      segsWf xs = true → segsWf ys = true →
      (∀ x, xs.head? = some x → x.t0 ≤ t) →
      (∀ y, ys.head? = some y → y.t0 ≤ t) →
      ∀ fa fb, xs.find? (fun s => decide (t ≤ s.t1)) = some fa →
        ys.find? (fun s => decide (t ≤ s.t1)) = some fb →
        (pairScanGo fuel xs ys).find?
            (fun q => decide (iStart q ≤ t) && decide (t ≤ iEnd q)) =
          some (fa, fb) := by
  intro fuel
  induction fuel with
  | zero =>
    intro xs ys hlen _ _ _ _ fa fb hfa hfb
    cases xs with
    | nil => simp at hfa
    | cons a xs2 => simp at hlen
  | succ fuel ih =>
    intro xs ys hlen hwx hwy hhx hhy fa fb hfa hfb
    cases xs with
    | nil => simp at hfa
    | cons a xs2 =>
      cases ys with
      | nil => simp at hfb
      | cons b ys2 =>
        have hat0 : a.t0 ≤ t := hhx a rfl
        have hbt0 : b.t0 ≤ t := hhy b rfl
        rw [pairScanGo]
        by_cases hta : t ≤ a.t1 <;> by_cases htb : t ≤ b.t1
        · have hfa2 : fa = a := by
            rw [List.find?_cons_of_pos _ (by simpa using hta)] at hfa
            exact (Option.some.inj hfa).symm
          have hfb2 : fb = b := by
            rw [List.find?_cons_of_pos _ (by simpa using htb)] at hfb
            exact (Option.some.inj hfb).symm
          have ho : overlapB a b = true := by
            simp only [overlapB, decide_eq_true_eq]
            omega
          rw [if_pos ho, List.singleton_append]
          rw [List.find?_cons_of_pos]
          · rw [hfa2, hfb2]
          · simp only [iStart, iEnd, Bool.and_eq_true, decide_eq_true_eq]
            omega
        · have hfb2 : ys2.find? (fun s => decide (t ≤ s.t1)) = some fb := by
            rw [List.find?_cons_of_neg _ (by simpa using htb)] at hfb
            exact hfb
          have hadv : ¬ (a.t1 ≤ b.t1) := by omega
          have hhy2 : ∀ y, ys2.head? = some y → y.t0 ≤ t := by
            intro y hy
            cases ys2 with
            | nil => simp at hy
            | cons b2 rest =>
              simp only [List.head?_cons, Option.some.injEq] at hy
              subst hy
              obtain ⟨hadj, _⟩ := segsWf_adj hwy
              omega
          have hrest := ih (a :: xs2) ys2 (by simp at hlen ⊢; omega) hwx
            (segsWf_cons hwy) hhx hhy2 fa fb hfa hfb2
          rw [if_neg hadv]
          by_cases ho : overlapB a b = true
          · rw [if_pos ho, List.singleton_append]
            rw [List.find?_cons_of_neg]
            · exact hrest
            · simp only [iStart, iEnd, Bool.and_eq_true, decide_eq_true_eq]
              omega
          · rw [if_neg ho, List.nil_append]
            exact hrest
        · have hfa2 : xs2.find? (fun s => decide (t ≤ s.t1)) = some fa := by
            rw [List.find?_cons_of_neg _ (by simpa using hta)] at hfa
            exact hfa
          have hadv : a.t1 ≤ b.t1 := by omega
          have hhx2 : ∀ x, xs2.head? = some x → x.t0 ≤ t := by
            intro x hx2
            cases xs2 with
            | nil => simp at hx2
            | cons a2 rest =>
              simp only [List.head?_cons, Option.some.injEq] at hx2
              subst hx2
              obtain ⟨hadj, _⟩ := segsWf_adj hwx
              omega
          have hrest := ih xs2 (b :: ys2) (by simp at hlen ⊢; omega)
            (segsWf_cons hwx) hwy hhx2 hhy fa fb hfa2 hfb
          rw [if_pos hadv]
          by_cases ho : overlapB a b = true
          · rw [if_pos ho, List.singleton_append]
            rw [List.find?_cons_of_neg]
            · exact hrest
            · simp only [iStart, iEnd, Bool.and_eq_true, decide_eq_true_eq]
              omega
          · rw [if_neg ho, List.nil_append]
            exact hrest
        · have hfa2 : xs2.find? (fun s => decide (t ≤ s.t1)) = some fa := by
            rw [List.find?_cons_of_neg _ (by simpa using hta)] at hfa
            exact hfa
          have hfb2 : ys2.find? (fun s => decide (t ≤ s.t1)) = some fb := by
            rw [List.find?_cons_of_neg _ (by simpa using htb)] at hfb
            exact hfb
          have hhx2 : ∀ x, xs2.head? = some x → x.t0 ≤ t := by
            intro x hx2
            cases xs2 with
            | nil => simp at hx2
            | cons a2 rest =>
              simp only [List.head?_cons, Option.some.injEq] at hx2
              subst hx2
              obtain ⟨hadj, _⟩ := segsWf_adj hwx
              omega
          have hhy2 : ∀ y, ys2.head? = some y → y.t0 ≤ t := by
            intro y hy
            cases ys2 with
            | nil => simp at hy
            | cons b2 rest =>
              simp only [List.head?_cons, Option.some.injEq] at hy
              subst hy
              obtain ⟨hadj, _⟩ := segsWf_adj hwy
              omega
          by_cases hadv : a.t1 ≤ b.t1
          · have hrest := ih xs2 (b :: ys2) (by simp at hlen ⊢; omega)
              (segsWf_cons hwx) hwy hhx2 hhy fa fb hfa2 hfb
            rw [if_pos hadv]
            by_cases ho : overlapB a b = true
            · rw [if_pos ho, List.singleton_append]
              rw [List.find?_cons_of_neg]
              · exact hrest
              · simp only [iStart, iEnd, Bool.and_eq_true, decide_eq_true_eq]
                omega
            · rw [if_neg ho, List.nil_append]
              exact hrest
          · have hrest := ih (a :: xs2) ys2 (by simp at hlen ⊢; omega) hwx
              (segsWf_cons hwy) hhx hhy2 fa fb hfa hfb2
            rw [if_neg hadv]
            by_cases ho : overlapB a b = true
            · rw [if_pos ho, List.singleton_append]
              rw [List.find?_cons_of_neg]
              · exact hrest
              · simp only [iStart, iEnd, Bool.and_eq_true, decide_eq_true_eq]
                omega
            · rw [if_neg ho, List.nil_append]
              exact hrest

/-- `pairScan` membership, specialized from the fuel-indexed scan. -/
theorem pairScan_mem {xs ys : List Segment} {q : Segment × Segment}
    (h : q ∈ pairScan xs ys) : q.1 ∈ xs ∧ q.2 ∈ ys :=
  pairScanGo_mem (xs.length + ys.length) xs ys q h

/-- `pairScan` interval ordering, specialized from the fuel-indexed
scan. -/
theorem pairScan_pairwise {xs ys : List Segment}
    (hx : segsWf xs = true) (hy : segsWf ys = true) :
    List.Pairwise (fun p q => iEnd p ≤ iStart q) (pairScan xs ys) :=
  pairScanGo_pairwise (xs.length + ys.length) xs ys hx hy

/-- `pairScan` first containing pair, specialized from the fuel-indexed
scan. -/
theorem pairScan_find_containing {t : Int} {xs ys : List Segment}
    (hx : segsWf xs = true) (hy : segsWf ys = true)
    (hhx : ∀ x, xs.head? = some x → x.t0 ≤ t)
    (hhy : ∀ y, ys.head? = some y → y.t0 ≤ t)
    {fa fb : Segment}
    (hfa : xs.find? (fun s => decide (t ≤ s.t1)) = some fa)
    (hfb : ys.find? (fun s => decide (t ≤ s.t1)) = some fb) :
    (pairScan xs ys).find?
        (fun q => decide (iStart q ≤ t) && decide (t ≤ iEnd q)) =
      some (fa, fb) :=
  pairScanGo_find_containing t (xs.length + ys.length) xs ys (le_refl _)
    hx hy hhx hhy fa fb hfa hfb

/-! ## Characterization of the narrow phase -/

/-- A reported narrow-phase conflict is a real conflict of the reported
pair, lies in that pair's intersection sub-interval, is the earliest
conflicting instant over all candidate pairs, and the reported pair is
the first candidate pair yielding any conflict. -/
theorem narrow_some_spec (A B : Trajectory) (cd : ConflictData)
    (h : (narrow_phase A B).data = some cd)
    (hA : segsWf A.segments = true) (hB : segsWf B.segments = true) :
    conflictB (cd.segA, cd.segB) cd.time = true ∧
    iStart (cd.segA, cd.segB) ≤ cd.time ∧
    cd.time ≤ iEnd (cd.segA, cd.segB) ∧
    (∀ t, inConflictAt A.segments B.segments t → cd.time ≤ t) ∧
    (∃ pre post,
      pairScan A.segments B.segments = pre ++ (cd.segA, cd.segB) :: post ∧
        ∀ q ∈ pre, ∀ t, iStart q ≤ t → t ≤ iEnd q → conflictB q t = false) := by
  have h2 : findConflict (pairScan A.segments B.segments) = some cd := h
  obtain ⟨pre, post, hL, hpre, hfirst⟩ := findConflict_some_spec _ cd h2
  obtain ⟨hg1, hg2, hg3, hg4⟩ := firstConfT_some_spec _ _ hfirst
  have hpre2 : ∀ q ∈ pre, ∀ t, iStart q ≤ t → t ≤ iEnd q →
      conflictB q t = false := by
    intro q hq t ht1 ht2
    exact (firstConfT_none_spec q).mp (hpre q hq) t ht1 ht2
  refine ⟨hg3, hg1, hg2, ?_, pre, post, hL, hpre2⟩
  rintro t ⟨q, hqmem, hq1, hq2, hq3⟩
  have hP := pairScan_pairwise hA hB
  rw [hL] at hP hqmem
  rcases List.mem_append.mp hqmem with hq4 | hq4
  · have := hpre2 q hq4 t hq1 hq2
    rw [this] at hq3
    simp at hq3
  · rcases List.mem_cons.mp hq4 with hq5 | hq5
    · by_contra hlt
      push_neg at hlt
      have hfalse := hg4 t (by rw [← hq5]; exact hq1) hlt
      rw [← hq5] at hfalse
      rw [hfalse] at hq3
      simp at hq3
    · obtain ⟨_, hP2, _⟩ := List.pairwise_append.mp hP
      have hrel := (List.pairwise_cons.mp hP2).1 q hq5
      omega

/-- The narrow phase reports no conflict exactly when no candidate pair
has a conflicting instant in its intersection sub-interval. -/
theorem narrow_none_iff (A B : Trajectory) :
    (narrow_phase A B).data = none ↔
      ∀ t, ¬ inConflictAt A.segments B.segments t := by
  constructor
  · rintro h t ⟨q, hq, h1, h2, h3⟩
    have h4 := (findConflict_none_spec _).mp h q hq
    have h5 := (firstConfT_none_spec q).mp h4 t h1 h2
    rw [h5] at h3
    simp at h3
  · intro hall
    apply (findConflict_none_spec _).mpr
    intro q hq
    apply (firstConfT_none_spec q).mpr
    intro v h1 h2
    by_contra hc
    have hc2 : conflictB q v = true := by
      revert hc
      cases conflictB q v <;> simp
    exact hall v ⟨q, hq, h1, h2, hc2⟩

/-- C3: for trajectory pairs satisfying the broad-phase precondition (and
the data-model invariants), the narrow phase reports the earliest
conflicting instant with the first conflicting segment pair, and reports
no conflict when no candidate pair conflicts. -/
theorem conflict_c3 (A B : Trajectory) (hA : wfT A = true) (hB : wfT B = true)
    (hbp : broad_phase A B = true) : C3Prop A B := by
  have hA2 : segsWf A.segments = true := by
    simp only [wfT, Bool.and_eq_true] at hA
    exact hA.2
  have hB2 : segsWf B.segments = true := by
    simp only [wfT, Bool.and_eq_true] at hB
    exact hB.2
  constructor
  · intro cd h
    exact narrow_some_spec A B cd h hA2 hB2
  · intro h
    exact (narrow_none_iff A B).mpr h

/-- Witness for C3 at concrete well-formed trajectories passing the broad
phase. -/
theorem conflict_c3_w :
    wfT trajA = true ∧ wfT trajB = true ∧ broad_phase trajA trajB = true ∧
      C3Prop trajA trajB :=
  ⟨by decide, by decide, by decide,
    conflict_c3 trajA trajB (by decide) (by decide) (by decide)⟩

/-! ## Symmetry of the detector -/

/-- The broad phase is symmetric in its two arguments. -/
theorem broad_phase_symm (A B : Trajectory) :
    broad_phase A B = broad_phase B A := by
  simp only [broad_phase]
  have h1 : decide (A.mapName = B.mapName) = decide (B.mapName = A.mapName) :=
    decide_eq_decide.mpr ⟨Eq.symm, Eq.symm⟩
  have h2 : decide (max (startT A) (startT B) ≤ min (finishT A) (finishT B)) =
      decide (max (startT B) (startT A) ≤ min (finishT B) (finishT A)) :=
    decide_eq_decide.mpr (by rw [max_comm, min_comm])
  rw [h1, h2]

/-- The squared-separation function is symmetric in the two segments. -/
theorem sepsq_swap (sa sb : Segment) (t : Int) :
    sepsq (sb, sa) t = sepsq (sa, sb) t := by
  simp only [sepsq]
  ring

/-- The pointwise conflict test is symmetric in the two segments. -/
theorem conflictB_swap (sa sb : Segment) (t : Int) :
    conflictB (sb, sa) t = conflictB (sa, sb) t := by
  simp only [conflictB, sepsq_swap]

/-- Replacing each segment of a pair by one that agrees with it at `t`
does not change the pointwise conflict test at `t`. -/
theorem conflictB_congr {sa sb sa2 sb2 : Segment} {t : Int}
    (h1 : agreeAt sa sa2 t) (h2 : agreeAt sb sb2 t) :
    conflictB (sa, sb) t = conflictB (sa2, sb2) t := by
  simp only [conflictB, sepsq, h1.1, h1.2.1, h1.2.2, h2.1, h2.2.1, h2.2.2]

/-- A segment list with a member still active at `t` yields a successful
search for the first segment active at `t`. -/
theorem find?_t1_isSome {xs : List Segment} {s : Segment} {t : Int}
    (hs : s ∈ xs) (ht : t ≤ s.t1) :
    ∃ fa, xs.find? (fun s2 => decide (t ≤ s2.t1)) = some fa := by
  have h : (xs.find? (fun s2 => decide (t ≤ s2.t1))).isSome := by
    rw [List.find?_isSome]
    exact ⟨s, hs, by simpa using ht⟩
  exact Option.isSome_iff_exists.mp h

/-- If some candidate pair of `pairScan xs ys` conflicts at `t`, then so
does some candidate pair of `pairScan ys xs` (for well-formed inputs):
the merge scan in the swapped order also visits a pair active at `t`,
and continuity makes its conflict test agree. -/
theorem inConflictAt_symm (xs ys : List Segment) (t : Int)
    (hx : segsWf xs = true) (hy : segsWf ys = true)
    (h : inConflictAt xs ys t) : inConflictAt ys xs t := by
  obtain ⟨q, hq, h1, h2, h3⟩ := h
  obtain ⟨hm1, hm2⟩ := pairScan_mem hq
  have hq1a : q.1.t0 ≤ t := by
    simp only [iStart] at h1
    omega
  have hq1b : t ≤ q.1.t1 := by
    simp only [iEnd] at h2
    omega
  have hq2a : q.2.t0 ≤ t := by
    simp only [iStart] at h1
    omega
  have hq2b : t ≤ q.2.t1 := by
    simp only [iEnd] at h2
    omega
  obtain ⟨fa, hfa⟩ := find?_t1_isSome hm1 hq1b
  obtain ⟨fb, hfb⟩ := find?_t1_isSome hm2 hq2b
  have hhx := segsWf_head?_t0_le hx hm1 hq1a
  have hhy := segsWf_head?_t0_le hy hm2 hq2a
  have hfind := pairScan_find_containing hy hx hhy hhx hfb hfa
  have hmemq2 : (fb, fa) ∈ pairScan ys xs := List.mem_of_find?_eq_some hfind
  have hcont := List.find?_some hfind
  simp only [Bool.and_eq_true, decide_eq_true_eq] at hcont
  have hfa_mem : fa ∈ xs := List.mem_of_find?_eq_some hfa
  have hfb_mem : fb ∈ ys := List.mem_of_find?_eq_some hfb
  have hfa_t1 : t ≤ fa.t1 := by simpa using List.find?_some hfa
  have hfb_t1 : t ≤ fb.t1 := by simpa using List.find?_some hfb
  have hfa_t0 : fa.t0 ≤ t := by
    have := hcont.1
    simp only [iStart] at this
    omega
  have hfb_t0 : fb.t0 ≤ t := by
    have := hcont.1
    simp only [iStart] at this
    omega
  have hag1 : agreeAt q.1 fa t := segsWf_agree hx hm1 hfa_mem hq1a hq1b hfa_t0 hfa_t1
  have hag2 : agreeAt q.2 fb t := segsWf_agree hy hm2 hfb_mem hq2a hq2b hfb_t0 hfb_t1
  refine ⟨(fb, fa), hmemq2, hcont.1, hcont.2, ?_⟩
  rw [conflictB_swap fa fb t, ← conflictB_congr hag1 hag2]
  exact h3

/-- A reported narrow-phase conflict implicates exactly the first
segment of each trajectory still active at the conflict time. -/
theorem narrow_some_pair (A B : Trajectory) (cd : ConflictData)
    (hA : segsWf A.segments = true) (hB : segsWf B.segments = true)
    (h : (narrow_phase A B).data = some cd) :
    A.segments.find? (fun s => decide (cd.time ≤ s.t1)) = some cd.segA ∧
    B.segments.find? (fun s => decide (cd.time ≤ s.t1)) = some cd.segB := by
  obtain ⟨pre, post, hL, hpre, hfirst⟩ :=
    findConflict_some_spec (pairScan A.segments B.segments) cd h
  obtain ⟨hg1, hg2, hg3, hg4⟩ := firstConfT_some_spec _ _ hfirst
  have hA1 : cd.segA.t0 ≤ cd.time := by
    simp only [iStart] at hg1
    omega
  have hA2 : cd.time ≤ cd.segA.t1 := by
    simp only [iEnd] at hg2
    omega
  have hB1 : cd.segB.t0 ≤ cd.time := by
    simp only [iStart] at hg1
    omega
  have hB2 : cd.time ≤ cd.segB.t1 := by
    simp only [iEnd] at hg2
    omega
  have hmem : (cd.segA, cd.segB) ∈ pairScan A.segments B.segments := by
    rw [hL]
    exact List.mem_append_right _ (List.mem_cons_self _ _)
  obtain ⟨hmA, hmB⟩ := pairScan_mem hmem
  obtain ⟨fa, hfa⟩ := find?_t1_isSome hmA hA2
  obtain ⟨fb, hfb⟩ := find?_t1_isSome hmB hB2
  have hha := segsWf_head?_t0_le hA hmA hA1
  have hhb := segsWf_head?_t0_le hB hmB hB1
  have hfind := pairScan_find_containing hA hB hha hhb hfa hfb
  have hfind2 : (pairScan A.segments B.segments).find?
      (fun q => decide (iStart q ≤ cd.time) && decide (cd.time ≤ iEnd q)) =
        some (cd.segA, cd.segB) := by
    rw [hL, List.find?_append]
    have hprefail : pre.find?
        (fun q => decide (iStart q ≤ cd.time) && decide (cd.time ≤ iEnd q)) =
          none := by
      rw [List.find?_eq_none]
      intro q hq hpq
      simp only [Bool.and_eq_true, decide_eq_true_eq] at hpq
      have hqmem : q ∈ pairScan A.segments B.segments := by
        rw [hL]
        exact List.mem_append_left _ hq
      obtain ⟨hqm1, hqm2⟩ := pairScan_mem hqmem
      have hq1a : q.1.t0 ≤ cd.time := by
        have := hpq.1
        simp only [iStart] at this
        omega
      have hq1b : cd.time ≤ q.1.t1 := by
        have := hpq.2
        simp only [iEnd] at this
        omega
      have hq2a : q.2.t0 ≤ cd.time := by
        have := hpq.1
        simp only [iStart] at this
        omega
      have hq2b : cd.time ≤ q.2.t1 := by
        have := hpq.2
        simp only [iEnd] at this
        omega
      have hag1 : agreeAt q.1 cd.segA cd.time :=
        segsWf_agree hA hqm1 hmA hq1a hq1b hA1 hA2
      have hag2 : agreeAt q.2 cd.segB cd.time :=
        segsWf_agree hB hqm2 hmB hq2a hq2b hB1 hB2
      have hqconf : conflictB q cd.time = true := by
        rw [show conflictB q cd.time = conflictB (q.1, q.2) cd.time from rfl]
        rw [conflictB_congr hag1 hag2]
        exact hg3
      have hnone := (firstConfT_none_spec q).mp (hpre q hq) cd.time hpq.1 hpq.2
      rw [hnone] at hqconf
      simp at hqconf
    rw [hprefail]
    simp only [Option.none_or]
    rw [List.find?_cons_of_pos]
    simp only [Bool.and_eq_true, decide_eq_true_eq]
    exact ⟨hg1, hg2⟩
  rw [hfind] at hfind2
  have hpair := Option.some.inj hfind2
  have hfa2 : fa = cd.segA := congrArg Prod.fst hpair
  have hfb2 : fb = cd.segB := congrArg Prod.snd hpair
  rw [← hfa2, ← hfb2]
  exact ⟨hfa, hfb⟩

/-- C5: for well-formed trajectories, `between A B` reports a conflict
exactly when `between B A` does; when both do, the conflict times are
equal and the segment references are swapped. -/
theorem conflict_c5 (A B : Trajectory) (hA : wfT A = true)
    (hB : wfT B = true) : C5Prop A B := by
  have hA2 : segsWf A.segments = true := by
    simp only [wfT, Bool.and_eq_true] at hA
    exact hA.2
  have hB2 : segsWf B.segments = true := by
    simp only [wfT, Bool.and_eq_true] at hB
    exact hB.2
  have hbsym := broad_phase_symm A B
  by_cases hbp : broad_phase A B = true
  · have hbp2 : broad_phase B A = true := by
      rw [← hbsym]
      exact hbp
    have e1 : between A B = narrow_phase A B := by
      simp [between, hbp]
    have e2 : between B A = narrow_phase B A := by
      simp [between, hbp2]
    constructor
    · rw [e1, e2]
      simp only [ConflictResult.has_conflict]
      cases hcase : (narrow_phase A B).data with
      | none =>
        have hnone2 : (narrow_phase B A).data = none := by
          rw [narrow_none_iff]
          intro t hc
          exact (narrow_none_iff A B).mp hcase t
            (inConflictAt_symm B.segments A.segments t hB2 hA2 hc)
        rw [hnone2]
      | some cd =>
        obtain ⟨hc1, hc2, hc3, hmin, pre, post, hL, _⟩ :=
          narrow_some_spec A B cd hcase hA2 hB2
        have hmem : inConflictAt A.segments B.segments cd.time := by
          refine ⟨(cd.segA, cd.segB), ?_, hc2, hc3, hc1⟩
          rw [hL]
          exact List.mem_append_right _ (List.mem_cons_self _ _)
        have hne : ¬ (narrow_phase B A).data = none := by
          intro hnone
          exact (narrow_none_iff B A).mp hnone cd.time
            (inConflictAt_symm A.segments B.segments cd.time hA2 hB2 hmem)
        obtain ⟨cd2, hcd2⟩ := Option.ne_none_iff_exists'.mp hne
        rw [hcd2]
        rfl
    · intro cd cd2 h1 h2
      rw [e1] at h1
      rw [e2] at h2
      obtain ⟨hc1, hc2, hc3, hmin1, pre1, post1, hL1, _⟩ :=
        narrow_some_spec A B cd h1 hA2 hB2
      obtain ⟨hd1, hd2, hd3, hmin2, pre2, post2, hL2, _⟩ :=
        narrow_some_spec B A cd2 h2 hB2 hA2
      have hmem1 : inConflictAt A.segments B.segments cd.time := by
        refine ⟨(cd.segA, cd.segB), ?_, hc2, hc3, hc1⟩
        rw [hL1]
        exact List.mem_append_right _ (List.mem_cons_self _ _)
      have hmem2 : inConflictAt B.segments A.segments cd2.time := by
        refine ⟨(cd2.segA, cd2.segB), ?_, hd2, hd3, hd1⟩
        rw [hL2]
        exact List.mem_append_right _ (List.mem_cons_self _ _)
      have ht1 : cd.time ≤ cd2.time :=
        hmin1 cd2.time (inConflictAt_symm B.segments A.segments cd2.time hB2 hA2 hmem2)
      have ht2 : cd2.time ≤ cd.time :=
        hmin2 cd.time (inConflictAt_symm A.segments B.segments cd.time hA2 hB2 hmem1)
      have hteq : cd2.time = cd.time := le_antisymm ht2 ht1
      obtain ⟨pa1, pb1⟩ := narrow_some_pair A B cd hA2 hB2 h1
      obtain ⟨pb2, pa2⟩ := narrow_some_pair B A cd2 hB2 hA2 h2
      rw [hteq] at pb2 pa2
      refine ⟨hteq, ?_, ?_⟩
      · exact Option.some.inj (pb2.symm.trans pb1)
      · exact Option.some.inj (pa2.symm.trans pa1)
  · have hbf : broad_phase A B = false := by
      revert hbp
      cases broad_phase A B <;> simp
    have hbf2 : broad_phase B A = false := by
      rw [← hbsym]
      exact hbf
    constructor
    · simp [between, hbf, hbf2]
    · intro cd cd2 h1 h2
      simp [between, hbf, ConflictResult.mkDefault] at h1
  
/-- Witness for C5 at concrete well-formed trajectories. -/
theorem conflict_c5_w :
    wfT trajA = true ∧ wfT trajB = true ∧ C5Prop trajA trajB :=
  ⟨by decide, by decide, conflict_c5 trajA trajB (by decide) (by decide)⟩
